import Mathlib

/-!
Verification of `generic_batch_organiser.py`.

The script scans a source directory for text files, pairs each with a
same-stem image file, partitions the sorted pair list into fixed-size
batches, copies or moves every batch into a numbered folder, and writes a
per-batch concatenation of the text contents separated by the literal
`TRP_PAGEBREAK`.

The embedding below models file and folder names as lists of characters,
the directory as an association list from names to contents, and the whole
run of `organize_files_into_batches` as a function from an initial
file-system state to an outcome plus a final state.  Python-specific
semantics that the script relies on are modelled explicitly: floor
division `//` (`Int.fdiv`), list slicing with negative indices,
`Path.with_suffix` including its suffix-validation errors, and f-string
zero padding `{n:02d}`.  Writes are modelled as immediately visible.
-/

namespace BatchOrg

abbrev Name := List Char
abbrev Content := List Char
abbrev FileMap := List (Name × Content)
abbrev Folders := List (Name × FileMap)

/-- `num_batches = (len(file_pairs) + batch_size - 1) // batch_size`
(line 48 of the script); Python `//` is floor division, i.e. `Int.fdiv`. -/
def numBatches (totalPairs : Nat) (batchSize : Int) : Int :=
  Int.fdiv ((totalPairs : Int) + batchSize - 1) batchSize

/-- Normalisation of one Python slice index: negative indices count from the
end of the list, and indices are clamped into `[0, len]`. -/
def pyIndex (len : Nat) (i : Int) : Nat :=
  if i < 0 then (i + (len : Int)).toNat else min i.toNat len

/-- Python list slicing `l[i:j]` (step 1). -/
def pySlice {α : Type} (l : List α) (i j : Int) : List α :=
  (l.take (pyIndex l.length j)).drop (pyIndex l.length i)

/-- `batch_pairs = file_pairs[start_idx:end_idx]` with
`start_idx = batch_num * batch_size` and
`end_idx = min(start_idx + batch_size, len(file_pairs))`
(lines 63-66 of the script). -/
def batchSlice {α : Type} (pairs : List α) (batchSize : Int) (batchNum : Nat) : List α :=
  pySlice pairs ((batchNum : Int) * batchSize)
    (min ((batchNum : Int) * batchSize + batchSize) (pairs.length : Int))

/-- The list of all batches the loop `for batch_num in range(num_batches)`
processes. -/
def allBatches {α : Type} (pairs : List α) (batchSize : Int) : List (List α) :=
  (List.range (numBatches pairs.length batchSize).toNat).map (batchSlice pairs batchSize)

/-- The separator token the script places between concatenated documents. -/
def sepToken : Content := ("TRP_PAGEBREAK").toList

/-- What line 91 of the script actually writes between documents:
`outfile.write("\nTRP_PAGEBREAK\n")`. -/
def sepWrite : Content := ("\nTRP_PAGEBREAK\n").toList

/-- The content the concatenation loop (lines 86-91) produces for a batch
whose text documents have the given contents: each document's content is
written in order, and the separator is written after each document except
the last. -/
def writeCombined : List Content → Content
  | [] => []
  | [c] => c
  | c :: c2 :: rest => c ++ sepWrite ++ writeCombined (c2 :: rest)

/-- `isPre pat l` holds when `pat` occurs at the very start of `l`. -/
def isPre : Content → Content → Bool
  | [], _ => true
  | _ :: _, [] => false
  | a :: as, b :: bs => if a = b then isPre as bs else false

/-- Number of positions of `l` at which the pattern `pat` occurs. -/
def countOccs (pat : Content) : Content → Nat
  | [] => 0
  | c :: rest => (if isPre pat (c :: rest) then 1 else 0) + countOccs pat rest

/-- Association-list lookup by file or folder name (first binding wins,
matching a directory where names are unique). -/
def alookup {β : Type} : List (Name × β) → Name → Option β
  | [], _ => none
  | (k, v) :: rest, n => if k = n then some v else alookup rest n

/-- Create or overwrite the binding of a name, in place. -/
def ainsert {β : Type} : List (Name × β) → Name → β → List (Name × β)
  | [], n, v => [(n, v)]
  | (k, w) :: rest, n, v => if k = n then (n, v) :: rest else (k, w) :: ainsert rest n v

/-- Remove the binding of a name (used for `shutil.move`'s removal of the
source file). -/
def aerase {β : Type} : List (Name × β) → Name → List (Name × β)
  | [], _ => []
  | (k, w) :: rest, n => if k = n then rest else (k, w) :: aerase rest n

/-- Update the value bound to a name, leaving the map unchanged when the
name is absent. -/
def amodify {β : Type} : List (Name × β) → Name → (β → β) → List (Name × β)
  | [], _, _ => []
  | (k, v) :: rest, n, f => if k = n then (k, f v) :: rest else (k, v) :: amodify rest n f

/-- The file-system state the script manipulates: whether the source
directory exists, the plain files directly inside it, and the batch
folders under it with their files. -/
structure FS where
  srcExists : Bool
  src : FileMap
  folders : Folders
deriving DecidableEq

/-- The arguments of `organize_files_into_batches`. -/
structure Config where
  batchSize : Int
  folderPfx : Name
  textExt : Name
  imageExt : Name
  combinedName : Name
  moveFiles : Bool
deriving DecidableEq

/-- Python string `<=` (lexicographic by code point), as used by `sorted`
on same-directory paths. -/
def strLe : Name → Name → Bool
  | [], _ => true
  | _ :: _, [] => false
  | a :: as, b :: bs => if a = b then strLe as bs else decide (a < b)

def insertSorted (n : Name) : List Name → List Name
  | [] => [n]
  | m :: rest => if strLe n m then n :: m :: rest else m :: insertSorted n rest

/-- Sorting by name, the effect of `sorted(...)` on the glob results. -/
def sortNames : List Name → List Name
  | [] => []
  | n :: rest => insertSorted n (sortNames rest)

/-- `text_files = sorted(source_path.glob(f"*{text_ext}"))` (line 28):
the names in the source directory ending with the text extension, in
ascending name order.  (Glob wildcards inside `text_ext` itself are out of
scope; for plain extensions the pattern `*ext` matches exactly the names
with suffix `ext`.) -/
def textFiles (src : FileMap) (textExt : Name) : List Name :=
  sortNames ((src.map Prod.fst).filter (fun n => textExt.isSuffixOf n))

/-- Errors `Path.with_suffix` can raise. -/
inductive SuffixErr where
  | invalid
  | emptyName
deriving DecidableEq

/-- `pathlib`'s suffix validation: a suffix is rejected when it is
non-empty and does not start with a dot, when it is exactly a dot, or when
it contains the path separator. -/
def suffixInvalid : Name → Bool
  | [] => false
  | c :: rest => if c = '.' then (if rest = [] then true else rest.contains '/') else true

def rfindDotAux : Name → Nat → Option Nat → Option Nat
  | [], _, acc => acc
  | c :: rest, i, acc => rfindDotAux rest (i + 1) (if c = '.' then some i else acc)

/-- `PurePath.suffix`: the part of the name from its last dot, or empty
when the last dot is leading, trailing or absent. -/
def pySuffix (name : Name) : Name :=
  match rfindDotAux name 0 none with
  | some i => if 0 < i ∧ i < name.length - 1 then name.drop i else []
  | none => []

/-- `text_file.with_suffix(image_ext)` (line 35): validate the new suffix,
then replace the old suffix of the name with it. -/
def withSuffix (name sfx : Name) : Except SuffixErr Name :=
  if suffixInvalid sfx then .error .invalid
  else if name = [] then .error .emptyName
  else .ok (name.take (name.length - (pySuffix name).length) ++ sfx)

/-- One iteration of the pairing loop (lines 34-39): derive the image name;
keep the pair when the image exists, otherwise warn and skip. -/
def pairAccum (src : FileMap) (imageExt : Name) (acc : List (Name × Name)) (t : Name) :
    Except SuffixErr (List (Name × Name)) :=
  match withSuffix t imageExt with
  | .error e => .error e
  | .ok img =>
    match alookup src img with
    | some _ => .ok (acc ++ [(t, img)])
    | none => .ok acc

/-- The discovery phase: the complete pairs, in sorted text-file order. -/
def discoverPairs (src : FileMap) (textExt imageExt : Name) :
    Except SuffixErr (List (Name × Name)) :=
  (textFiles src textExt).foldlM (pairAccum src imageExt) []

def digitsAux : Nat → Nat → List Char
  | 0, _ => []
  | fuel + 1, n =>
    if n < 10 then [Nat.digitChar n]
    else digitsAux fuel (n / 10) ++ [Nat.digitChar (n % 10)]

/-- Decimal digits of a natural number. -/
def natDigits (n : Nat) : List Char := digitsAux (n + 1) n

/-- Python's `f"{n:02d}"`: decimal digits, zero-padded to width 2. -/
def pad2 (n : Nat) : List Char := if n < 10 then '0' :: natDigits n else natDigits n

/-- `folder_name = f"{folder_prefix}_{batch_num + 1:02d}"` (line 56). -/
def batchFolderName (pfx : Name) (batchNum : Nat) : Name :=
  pfx ++ '_' :: pad2 (batchNum + 1)

/-- `batch_folder.mkdir(exist_ok=True)` (line 60): create the folder when
absent, reuse it otherwise. -/
def mkdirFolders (folders : Folders) (n : Name) : Folders :=
  match alookup folders n with
  | some _ => folders
  | none => folders ++ [(n, [])]

/-- `shutil.move` / `shutil.copy2` of one file into the batch folder
(lines 72-77): fails when the source file is missing; in move mode the
source binding is removed. -/
def transferFile (move : Bool) (folderName fileName : Name) (fs : FS) : Except FS FS :=
  match alookup fs.src fileName with
  | none => .error fs
  | some c =>
    let fs1 : FS :=
      { fs with folders := (amodify fs.folders folderName (fun fm => ainsert fm fileName c)) }
    .ok (if move then { fs1 with src := aerase fs1.src fileName } else fs1)

/-- Transfer the text file then the image file of one pair (lines 71-77). -/
def transferPair (move : Bool) (folderName : Name) (fs : FS) (p : Name × Name) :
    Except FS FS := do
  let fs1 ← transferFile move folderName p.1 fs
  transferFile move folderName p.2 fs1

/-- Append `s` to the combined file of the batch folder. -/
def concatWrite (folders : Folders) (folderName combinedName : Name) (s : Content) :
    Folders :=
  amodify folders folderName (fun fm =>
    ainsert fm combinedName ((alookup fm combinedName).getD [] ++ s))

/-- One iteration of the concatenation loop (lines 86-91): read the text
file from the batch folder, append its content to the combined file, and
append the separator unless this is the last document. -/
def concatStep (folderName combinedName : Name) (n : Nat) (folders : Folders)
    (jp : Nat × (Name × Name)) : Except Folders Folders :=
  match (alookup folders folderName).bind (fun fm => alookup fm jp.2.1) with
  | none => .error folders
  | some content =>
    .ok (concatWrite folders folderName combinedName
          (content ++ (if jp.1 < n - 1 then sepWrite else [])))

/-- The whole concatenation phase for one batch (lines 83-91): truncate the
combined file (`open(..., 'w')`), then run the loop.  It touches only the
folder map, never the source files. -/
def concatBatch (folderName combinedName : Name) (batch : List (Name × Name)) (fs : FS) :
    Except FS FS :=
  match batch.enum.foldlM (concatStep folderName combinedName batch.length)
      (amodify fs.folders folderName (fun fm => ainsert fm combinedName [])) with
  | .error g => .error { fs with folders := g }
  | .ok g => .ok { fs with folders := g }

/-- One iteration of the batch loop (lines 54-93): make the folder, slice
the pairs, transfer them (copy or move), then concatenate. -/
def processBatch (cfg : Config) (pairs : List (Name × Name)) (fs : FS) (batchNum : Nat) :
    Except FS FS :=
  ((batchSlice pairs cfg.batchSize batchNum).foldlM
      (transferPair cfg.moveFiles (batchFolderName cfg.folderPfx batchNum))
      { fs with folders := mkdirFolders fs.folders (batchFolderName cfg.folderPfx batchNum) })
    >>= concatBatch (batchFolderName cfg.folderPfx batchNum) cfg.combinedName
      (batchSlice pairs cfg.batchSize batchNum)

/-- How a run of `organize_files_into_batches` ends. -/
inductive Outcome where
  | missingDir
  | noPairs
  | suffixErr (e : SuffixErr)
  | zeroDiv
  | transferFail
  | ok (numBatches : Int) (totalPairs : Nat)
deriving DecidableEq

/-- The whole run of `organize_files_into_batches`: the early returns for a
missing directory and an empty pair set, the `ZeroDivisionError` when
`batch_size` is zero, and the batch loop.  The returned state is the file
system at the moment the run ends (also on an uncaught error). -/
def run (cfg : Config) (fs : FS) : Outcome × FS :=
  if fs.srcExists = false then (.missingDir, fs)
  else
    match discoverPairs fs.src cfg.textExt cfg.imageExt with
    | .error e => (.suffixErr e, fs)
    | .ok pairs =>
      if pairs = [] then (.noPairs, fs)
      else if cfg.batchSize = 0 then (.zeroDiv, fs)
      else
        match (List.range (numBatches pairs.length cfg.batchSize).toNat).foldlM
            (processBatch cfg pairs) fs with
        | .error fs1 => (.transferFail, fs1)
        | .ok fs1 => (.ok (numBatches pairs.length cfg.batchSize) pairs.length, fs1)

deriving instance DecidableEq for Except

/-! Derived specifications used to characterise the batch loop in the
theorems below. -/

/-- The names of the files of a batch's pairs, in transfer order. -/
def pairNames : List (Name × Name) → List Name
  | [] => []
  | p :: rest => p.1 :: p.2 :: pairNames rest

/-- All pair-file names transferred by the first `k` batches. -/
def movedNames (pairs : List (Name × Name)) (bs : Int) (k : Nat) : List Name :=
  ((List.range k).map (fun i => pairNames (batchSlice pairs bs i))).flatten

/-- The folder file-map after transferring a batch into it, the contents
taken from the initial source directory. -/
def transferAppend (src0 : FileMap) : FileMap → List (Name × Name) → FileMap
  | fm, [] => fm
  | fm, p :: rest =>
    transferAppend src0
      (ainsert (ainsert fm p.1 ((alookup src0 p.1).getD []))
        p.2 ((alookup src0 p.2).getD [])) rest

/-- The folder file-map after the concatenation loop runs over it. -/
def concatAccum (combinedName : Name) (n : Nat) :
    FileMap → List (Nat × (Name × Name)) → FileMap
  | fm, [] => fm
  | fm, jp :: rest =>
    concatAccum combinedName n
      (ainsert fm combinedName ((alookup fm combinedName).getD []
        ++ ((alookup fm jp.2.1).getD []
          ++ (if jp.1 < n - 1 then sepWrite else [])))) rest

/-- The full contents of one batch folder after its batch has been
transferred into a fresh folder and concatenated. -/
def folderContent (src0 : FileMap) (combinedName : Name) (batch : List (Name × Name)) :
    FileMap :=
  concatAccum combinedName batch.length
    (ainsert (transferAppend src0 [] batch) combinedName []) batch.enum

/-- Numeric value of a decimal digit character. -/
def digitVal (c : Char) : Nat := c.toNat - ('0').toNat

/-- Reading a decimal digit string back as a number. -/
def digitsToNat (l : List Char) : Nat := l.foldl (fun a c => 10 * a + digitVal c) 0

/-- The copy run and the move run of the same initial state stay related:
equal folders, the move-side source a submap of the copy-side source with
duplicate-free names. -/
def simR (fsC fsM : FS) : Prop :=
  fsC.folders = fsM.folders ∧
  (∀ n v, alookup fsM.src n = some v → alookup fsC.src n = some v) ∧
  (fsM.src.map Prod.fst).Nodup

/-! Concrete names, configurations and states used by the witnesses and
counterexamples below. -/

def pfxB : Name := ("Batch").toList

def extTxt : Name := (".txt").toList

def extJpg : Name := (".jpg").toList

def combinedTxt : Name := ("combined.txt").toList

def aTxt : Name := ("a.txt").toList

def aJpg : Name := ("a.jpg").toList

def bTxt : Name := ("b.txt").toList

def bJpg : Name := ("b.jpg").toList

/-- `batch_size = -1`: the failing input of the batch-size policy. -/
def cfgC5 : Config := ⟨-1, pfxB, extTxt, extJpg, combinedTxt, false⟩

def fsC5 : FS := ⟨true, [(aTxt, ("A").toList), (aJpg, ("IA").toList)], []⟩

def cfgC6 : Config := ⟨250, pfxB, extTxt, extJpg, combinedTxt, false⟩

def fsC6 : FS := ⟨false, [], []⟩

/-- A directory with one text file and no matching image. -/
def fsC7 : FS := ⟨true, [(aTxt, ("A").toList)], []⟩

/-- An image extension without a leading dot. -/
def cfgC10a : Config := ⟨250, pfxB, extTxt, ("jpg").toList, combinedTxt, false⟩

/-- An image extension that is exactly a dot. -/
def cfgC10x : Config := ⟨250, pfxB, extTxt, (".").toList, combinedTxt, false⟩

/-- Move mode, batch size 1. -/
def cfgC8 : Config := ⟨1, pfxB, extTxt, extJpg, combinedTxt, true⟩

def fsC8 : FS := ⟨true, [(aTxt, ("A").toList), (aJpg, ("IA").toList),
  (bTxt, ("B").toList), (bJpg, ("IB").toList)], []⟩

/-- The pairs discovery finds in `fsC8`. -/
def pairsC8 : List (Name × Name) := [(aTxt, aJpg), (bTxt, bJpg)]

/-- Copy mode base configuration for the mode-equivalence witness. -/
def cfgC9 : Config := ⟨1, pfxB, extTxt, extJpg, combinedTxt, false⟩

def fsC9 : FS := ⟨true, [(aTxt, ("A").toList), (aJpg, ("IA").toList),
  (bTxt, ("B").toList), (bJpg, ("IB").toList)], []⟩

end BatchOrg

namespace BatchOrg

theorem numBatches_cast (P b : Nat) (hb : 0 < b) :
    numBatches P (b : Int) = (((P + b - 1) / b : Nat) : Int) := by
  unfold numBatches
  have h1 : ((P : Int) + (b : Int) - 1) = ((P + b - 1 : Nat) : Int) := by omega
  rw [h1, ← Int.ofNat_fdiv]

theorem ceil_facts (P b : Nat) (hb : 0 < b) :
    P ≤ b * ((P + b - 1) / b) ∧ b * ((P + b - 1) / b) < P + b := by
  have h := Nat.div_add_mod (P + b - 1) b
  have h2 : (P + b - 1) % b < b := Nat.mod_lt _ hb
  revert h h2
  generalize (P + b - 1) / b = q
  generalize (P + b - 1) % b = r
  intro h h2
  rcases Nat.eq_zero_or_pos P with hP | hP
  · subst hP; simp; omega
  · revert h
    generalize b * q = A
    omega

theorem numBatches_toNat (P b : Nat) (hb : 0 < b) :
    (numBatches P (b : Int)).toNat = (P + b - 1) / b := by
  rw [numBatches_cast P b hb, Int.toNat_ofNat]

/-- With a positive batch size, `batchSlice` is an ordinary
drop-then-take chunk of the list. -/
theorem batchSlice_eq_drop_take {α : Type} (l : List α) (b : Nat) (hb : 0 < b) (i : Nat) :
    batchSlice l (b : Int) i = (l.drop (i * b)).take b := by
  unfold batchSlice pySlice pyIndex
  have hcast : ((i : Int) * (b : Int) + (b : Int)) = ((i * b + b : Nat) : Int) := by
    push_cast; ring
  have hcast2 : ((i : Int) * (b : Int)) = ((i * b : Nat) : Int) := by push_cast; ring
  rw [hcast, hcast2]
  have hmin : min ((i * b + b : Nat) : Int) ((l.length : Nat) : Int)
      = ((min (i * b + b) l.length : Nat) : Int) := by
    simp [Nat.cast_min]
  rw [hmin]
  have hn1 : ¬ ((min (i * b + b) l.length : Nat) : Int) < 0 := by omega
  have hn2 : ¬ ((i * b : Nat) : Int) < 0 := by omega
  rw [if_neg hn1, if_neg hn2, Int.toNat_ofNat, Int.toNat_ofNat]
  rcases Nat.le_total (i * b) l.length with hle | hlt
  · have e1 : min (min (i * b + b) l.length) l.length = min (i * b + b) l.length := by omega
    have e2 : min (i * b) l.length = i * b := by omega
    rw [e1, e2, List.drop_take]
    have e3 : (l.drop (i * b)).take (min (i * b + b) l.length - i * b)
        = (l.drop (i * b)).take b := by
      apply List.take_eq_take.mpr
      simp
      omega
    exact e3
  · have e2 : min (i * b) l.length = l.length := by omega
    rw [e2]
    have d1 : (l.take (min (min (i * b + b) l.length) l.length)).drop l.length = [] := by
      apply List.drop_eq_nil_of_le
      simp
    have d2 : (l.drop (i * b)).take b = [] := by
      have : l.drop (i * b) = [] := List.drop_eq_nil_of_le (by omega)
      simp [this]
    rw [d1, d2]

theorem flatten_chunks {α : Type} (l : List α) (b : Nat) (k : Nat) :
    ((List.range k).map (fun i => (l.drop (i * b)).take b)).flatten = l.take (k * b) := by
  induction k with
  | zero => simp
  | succ n ih =>
    rw [List.range_succ, List.map_append, List.flatten_append, ih]
    simp only [List.map_cons, List.map_nil, List.flatten_cons, List.flatten_nil,
      List.append_nil]
    rw [Nat.succ_mul, List.take_add]

theorem allBatches_eq_chunks {α : Type} (pairs : List α) (bs : Int) (hb : 0 < bs) :
    allBatches pairs bs = (List.range (numBatches pairs.length bs).toNat).map
      (fun i => (pairs.drop (i * bs.toNat)).take bs.toNat) := by
  unfold allBatches
  apply List.map_congr_left
  intro i _
  have hbs : bs = (bs.toNat : Int) := (Int.toNat_of_nonneg hb.le).symm
  rw [hbs]
  exact batchSlice_eq_drop_take pairs bs.toNat (by omega) i

theorem flatten_allBatches {α : Type} (pairs : List α) (bs : Int) (hb : 0 < bs) :
    (allBatches pairs bs).flatten = pairs := by
  have hbpos : 0 < bs.toNat := by omega
  have hbs : bs = (bs.toNat : Int) := (Int.toNat_of_nonneg hb.le).symm
  rw [allBatches_eq_chunks pairs bs hb, flatten_chunks]
  apply List.take_of_length_le
  have hK : (numBatches pairs.length bs).toNat = (pairs.length + bs.toNat - 1) / bs.toNat := by
    rw [hbs]; exact numBatches_toNat pairs.length bs.toNat hbpos
  have hceil := (ceil_facts pairs.length bs.toNat hbpos).1
  rw [hK, Nat.mul_comm]
  exact hceil

/-- C1: the batches produced by the partitioning step are contiguous slices
of the pair list: flattening them in batch order restores the pair list
exactly (so their union is the full pair set and the original order is
preserved), and when the pair list has no duplicates no pair occurs in two
different batches. -/
theorem batches_partition {α : Type} (pairs : List α) (bs : Int) (hb : 0 < bs) :
    (allBatches pairs bs).flatten = pairs ∧
    (pairs.Nodup → (allBatches pairs bs).Pairwise List.Disjoint) := by
  refine ⟨flatten_allBatches pairs bs hb, fun hnd => ?_⟩
  have h : ((allBatches pairs bs).flatten).Nodup := by
    rw [flatten_allBatches pairs bs hb]; exact hnd
  exact (List.nodup_flatten.mp h).2

/-- Witness for C1 at a concrete input. -/
theorem batches_partition_witness :
    (allBatches [0, 1, 2] (2 : Int)).flatten = [0, 1, 2] ∧
    (([0, 1, 2] : List Nat).Nodup → (allBatches [0, 1, 2] (2 : Int)).Pairwise List.Disjoint) :=
  batches_partition [0, 1, 2] 2 (by decide)

/-- C2: with at least one pair and a positive batch size, the number of
batches computed (which is the number of batch folders the loop processes)
is the ceiling of `totalPairs / batchSize`: it is the least `m` with
`totalPairs ≤ m * batchSize`. -/
theorem numBatches_eq_ceiling {α : Type} (l : List α) (bs : Int) (hb : 0 < bs)
    (hP : 0 < l.length) :
    (allBatches l bs).length = (numBatches l.length bs).toNat ∧
    l.length ≤ (numBatches l.length bs).toNat * bs.toNat ∧
    ∀ m : Nat, l.length ≤ m * bs.toNat → (numBatches l.length bs).toNat ≤ m := by
  have hbpos : 0 < bs.toNat := by omega
  have hbs : bs = (bs.toNat : Int) := (Int.toNat_of_nonneg hb.le).symm
  have hK : (numBatches l.length bs).toNat = (l.length + bs.toNat - 1) / bs.toNat := by
    rw [hbs]; exact numBatches_toNat l.length bs.toNat hbpos
  refine ⟨by simp [allBatches], ?_, ?_⟩
  · rw [hK, Nat.mul_comm]
    exact (ceil_facts l.length bs.toNat hbpos).1
  · intro m hm
    rw [hK]
    have hlt : l.length + bs.toNat - 1 < (m + 1) * bs.toNat := by
      rw [Nat.succ_mul]
      revert hm
      generalize m * bs.toNat = X
      intro hm
      omega
    have := (Nat.div_lt_iff_lt_mul hbpos).mpr hlt
    omega

/-- Witness for C2 at a concrete input. -/
theorem numBatches_eq_ceiling_witness :
    (allBatches [0, 1, 2, 3, 4] (2 : Int)).length = (numBatches 5 (2 : Int)).toNat ∧
    5 ≤ (numBatches 5 (2 : Int)).toNat * (2 : Int).toNat ∧
    ∀ m : Nat, 5 ≤ m * (2 : Int).toNat → (numBatches 5 (2 : Int)).toNat ≤ m := by
  have h := numBatches_eq_ceiling ([0, 1, 2, 3, 4] : List Nat) 2 (by decide) (by decide)
  simpa using h

/-- C3: with a positive batch size, every batch before the last has exactly
`batchSize` pairs, and the last batch has `totalPairs % batchSize` pairs,
or `batchSize` pairs when `batchSize` divides `totalPairs`. -/
theorem batch_sizes {α : Type} (pairs : List α) (bs : Int) (hb : 0 < bs)
    (hP : pairs ≠ []) :
    (∀ i, i + 1 < (numBatches pairs.length bs).toNat →
      (batchSlice pairs bs i).length = bs.toNat) ∧
    ((batchSlice pairs bs ((numBatches pairs.length bs).toNat - 1)).length =
      if pairs.length % bs.toNat = 0 then bs.toNat else pairs.length % bs.toNat) := by
  have hbpos : 0 < bs.toNat := by omega
  have hbs : bs = (bs.toNat : Int) := (Int.toNat_of_nonneg hb.le).symm
  have hPpos : 0 < pairs.length := List.length_pos.mpr hP
  have hK : (numBatches pairs.length bs).toNat = (pairs.length + bs.toNat - 1) / bs.toNat := by
    rw [hbs]; exact numBatches_toNat pairs.length bs.toNat hbpos
  have hceil := ceil_facts pairs.length bs.toNat hbpos
  set b := bs.toNat with hbdef
  set P := pairs.length with hPdef
  set K := (numBatches P bs).toNat with hKdef
  have hc1 : P ≤ K * b := by rw [hK, Nat.mul_comm]; exact hceil.1
  have hc2 : K * b < P + b := by rw [hK, Nat.mul_comm]; exact hceil.2
  have hslice : ∀ i : Nat, (batchSlice pairs bs i).length = min b (P - i * b) := by
    intro i
    rw [hbs, batchSlice_eq_drop_take pairs b hbpos i]
    simp [← hPdef]
  have hK1 : 1 ≤ K := by
    by_contra hcon
    have : K = 0 := by omega
    rw [this, Nat.zero_mul] at hc1
    omega
  constructor
  · intro i hi
    rw [hslice i]
    have hmono : (i + 1) * b ≤ (K - 1) * b := Nat.mul_le_mul_right b (by omega)
    have hsub : (K - 1) * b = K * b - 1 * b := Nat.sub_mul K 1 b
    rw [Nat.one_mul] at hsub
    have hbK : b ≤ K * b := by
      calc b = 1 * b := (Nat.one_mul b).symm
      _ ≤ K * b := Nat.mul_le_mul_right b hK1
    rw [Nat.succ_mul] at hmono
    revert hmono hsub hbK hc1 hc2
    generalize i * b = Z
    generalize K * b = Y
    generalize (K - 1) * b = W
    intro hmono hsub hbK hc1 hc2
    omega
  · rw [hslice (K - 1)]
    have hsub : (K - 1) * b = K * b - 1 * b := Nat.sub_mul K 1 b
    rw [Nat.one_mul] at hsub
    have hbK : b ≤ K * b := by
      calc b = 1 * b := (Nat.one_mul b).symm
      _ ≤ K * b := Nat.mul_le_mul_right b hK1
    have hveq : P = (P - (K - 1) * b) + (K - 1) * b := by omega
    have hmod : P % b = (P - (K - 1) * b) % b := by
      conv_lhs => rw [hveq]
      exact Nat.add_mul_mod_self_right (P - (K - 1) * b) (K - 1) b
    have hv1 : 1 ≤ P - (K - 1) * b := by omega
    have hv2 : P - (K - 1) * b ≤ b := by omega
    rcases Nat.lt_or_ge (P - (K - 1) * b) b with hvlt | hvge
    · have : (P - (K - 1) * b) % b = P - (K - 1) * b := Nat.mod_eq_of_lt hvlt
      rw [hmod, this, if_neg (by omega)]
      omega
    · have hveqb : P - (K - 1) * b = b := by omega
      rw [hmod, hveqb, if_pos (by simp)]
      omega

theorem isPre_append_nl (pat : Content) (hnl : '\n' ∉ pat) :
    ∀ (a s : Content), isPre pat (a ++ '\n' :: s) = isPre pat a := by
  induction pat with
  | nil => intro a s; rfl
  | cons p ps ih =>
    intro a s
    cases a with
    | nil =>
      have hp : p ≠ '\n' := fun h => hnl (h ▸ List.mem_cons_self p ps)
      simp [isPre, hp]
    | cons x xs =>
      simp only [List.cons_append, isPre, List.append_eq]
      rw [ih (fun h => hnl (List.mem_cons_of_mem p h)) xs s]

theorem countOccs_append_nl (pat : Content) (hne : pat ≠ []) (hnl : '\n' ∉ pat) :
    ∀ (a s : Content), countOccs pat (a ++ '\n' :: s) = countOccs pat a + countOccs pat s := by
  intro a
  induction a with
  | nil =>
    intro s
    rcases pat with _ | ⟨p, ps⟩
    · exact absurd rfl hne
    · have hp : p ≠ '\n' := fun h => hnl (h ▸ List.mem_cons_self p ps)
      simp [countOccs, isPre, hp]
  | cons x xs ih =>
    intro s
    have h1 : (x :: xs) ++ '\n' :: s = x :: (xs ++ '\n' :: s) := rfl
    rw [h1]
    simp only [countOccs]
    rw [ih s]
    have h2 : isPre pat (x :: (xs ++ '\n' :: s)) = isPre pat (x :: xs) := by
      have := isPre_append_nl pat hnl (x :: xs) s
      simpa using this
    rw [h2]
    omega

theorem sepWrite_eq : sepWrite = '\n' :: (sepToken ++ '\n' :: []) := by decide

theorem sepToken_ne_nil : sepToken ≠ [] := by decide

theorem nl_not_mem_sepToken : '\n' ∉ sepToken := by decide

theorem countOccs_sepToken_self : countOccs sepToken sepToken = 1 := by decide

theorem writeCombined_count (contents : List Content) (hne : contents ≠ []) :
    countOccs sepToken (writeCombined contents) =
      (contents.map (countOccs sepToken)).sum + (contents.length - 1) := by
  induction contents with
  | nil => exact absurd rfl hne
  | cons c rest ih =>
    rcases rest with _ | ⟨c2, rest'⟩
    · simp [writeCombined]
    · have hw : writeCombined (c :: c2 :: rest') =
          c ++ '\n' :: (sepToken ++ '\n' :: writeCombined (c2 :: rest')) := by
        show c ++ sepWrite ++ writeCombined (c2 :: rest') = _
        rw [sepWrite_eq]
        simp [List.append_assoc]
      rw [hw]
      rw [countOccs_append_nl sepToken sepToken_ne_nil nl_not_mem_sepToken c _]
      rw [countOccs_append_nl sepToken sepToken_ne_nil nl_not_mem_sepToken sepToken _]
      rw [countOccs_sepToken_self, ih (by simp)]
      simp only [List.map_cons, List.sum_cons, List.length_cons]
      omega

/-- C4 counterexample: a batch of one document whose content is itself the
separator token yields a combined file with 1 occurrence of the token, not
`1 - 1 = 0` as the claim requires for every batch. -/
theorem sep_count_cex :
    countOccs sepToken (writeCombined [sepToken]) ≠ [sepToken].length - 1 := by decide

/-- C4 (amended): for a non-empty batch none of whose document contents
contains the separator token, the combined content written by the
concatenation loop contains exactly `n - 1` occurrences of the token; the
separator is written after each document except the last, so it stands
strictly between consecutive documents, never before the first or after
the last. -/
theorem sep_count_between (contents : List Content) (hne : contents ≠ [])
    (hclean : ∀ c ∈ contents, countOccs sepToken c = 0) :
    countOccs sepToken (writeCombined contents) = contents.length - 1 := by
  rw [writeCombined_count contents hne]
  have hz : (contents.map (countOccs sepToken)).sum = 0 := by
    apply List.sum_eq_zero
    intro x hx
    rcases List.mem_map.mp hx with ⟨c, hc, rfl⟩
    exact hclean c hc
  omega

/-- Witness for C4 (amended) at a concrete input. -/
theorem sep_count_between_witness :
    countOccs sepToken (writeCombined [("a").toList, ("b").toList]) = 1 := by
  have h := sep_count_between [("a").toList, ("b").toList] (by decide) (by decide)
  simpa using h

/-- Witness for C3 at a concrete input. -/
theorem batch_sizes_witness :
    (∀ i, i + 1 < (numBatches 5 (2 : Int)).toNat →
      (batchSlice [0, 1, 2, 3, 4] (2 : Int) i).length = (2 : Int).toNat) ∧
    ((batchSlice [0, 1, 2, 3, 4] (2 : Int) ((numBatches 5 (2 : Int)).toNat - 1)).length =
      if 5 % (2 : Int).toNat = 0 then (2 : Int).toNat else 5 % (2 : Int).toNat) := by
  have h := batch_sizes ([0, 1, 2, 3, 4] : List Nat) 2 (by decide) (by decide)
  simpa using h

/-- C5: with `batch_size = -1` and one complete pair the run raises no
error at all: it reports a successful outcome with `num_batches = 1` and
mutates the file system (it creates a batch folder, which then holds an
empty combined file).  This contradicts the stated policy that
`batchSize ≤ 0` must fail fast before any mutation; only `batch_size = 0`
accidentally fails fast, via `ZeroDivisionError`. -/
theorem negative_batch_size_mutates :
    (run cfgC5 fsC5).1 = .ok 1 1 ∧ (run cfgC5 fsC5).2.folders ≠ [] := by decide

/-- C6: when the source directory does not exist the run reports the
missing directory and returns with the file system unchanged. -/
theorem missing_dir_no_mutation (cfg : Config) (fs : FS) (h : fs.srcExists = false) :
    run cfg fs = (.missingDir, fs) := by
  unfold run
  rw [h]
  simp

/-- Witness for C6 at a concrete input. -/
theorem missing_dir_no_mutation_witness : run cfgC6 fsC6 = (.missingDir, fsC6) :=
  missing_dir_no_mutation cfgC6 fsC6 (by decide)

/-- C7: when discovery yields zero complete pairs the run reports that no
pairs were found and returns with the file system unchanged. -/
theorem no_pairs_no_mutation (cfg : Config) (fs : FS) (h1 : fs.srcExists = true)
    (h2 : discoverPairs fs.src cfg.textExt cfg.imageExt = .ok []) :
    run cfg fs = (.noPairs, fs) := by
  unfold run
  rw [h1, h2]
  simp

/-- Witness for C7 at a concrete input. -/
theorem no_pairs_no_mutation_witness : run cfgC6 fsC7 = (.noPairs, fsC7) :=
  no_pairs_no_mutation cfgC6 fsC7 (by decide) (by decide)

theorem pairAccum_invalid (src : FileMap) (sfx : Name) (h : suffixInvalid sfx = true)
    (acc : List (Name × Name)) (t : Name) :
    pairAccum src sfx acc t = .error .invalid := by
  unfold pairAccum withSuffix
  rw [h]
  simp

theorem foldlM_pairAccum_no_invalid (src : FileMap) (sfx : Name)
    (h : suffixInvalid sfx = false) :
    ∀ (l : List Name) (acc : List (Name × Name)),
      l.foldlM (pairAccum src sfx) acc ≠ .error .invalid := by
  intro l
  induction l with
  | nil => intro acc hcon; exact Except.noConfusion hcon
  | cons t ts ih =>
    intro acc
    rw [List.foldlM_cons]
    rcases hpa : pairAccum src sfx acc t with e | acc'
    · have he : e = .emptyName := by
        unfold pairAccum withSuffix at hpa
        rw [h] at hpa
        by_cases ht : t = []
        · simp [ht] at hpa
          exact hpa.symm
        · simp only [if_neg ht, Bool.false_eq_true, if_false] at hpa
          split at hpa <;> exact Except.noConfusion hpa
      rw [he]
      show (Except.error SuffixErr.emptyName : Except SuffixErr (List (Name × Name)))
        ≠ .error .invalid
      simp
    · show ts.foldlM (pairAccum src sfx) acc' ≠ .error .invalid
      exact ih acc'

/-- C10 counterexample: the image extension `"."` begins with a dot, yet
with one text file present the pairing raises the invalid-suffix error —
so the error branch is reachable for extensions beginning with `'.'`,
contrary to the claim's second half. -/
theorem dot_suffix_cex :
    cfgC10x.imageExt.head? = some '.' ∧
    run cfgC10x fsC7 = (.suffixErr .invalid, fsC7) := by decide

/-- C10 (amended): when `image_ext` is non-empty and does not begin with a
dot and at least one text file matches, the run stops with the
invalid-suffix error before creating any batch folder (the state is
returned unchanged); and the invalid-suffix branch is unreachable whenever
`image_ext` begins with a dot, has at least one further character and
contains no path separator. -/
theorem suffix_validation (cfg : Config) (fs : FS) :
    (cfg.imageExt ≠ [] → cfg.imageExt.head? ≠ some '.' → fs.srcExists = true →
      textFiles fs.src cfg.textExt ≠ [] →
      run cfg fs = (.suffixErr .invalid, fs)) ∧
    (∀ rest : Name, cfg.imageExt = '.' :: rest → rest ≠ [] →
      rest.contains '/' = false →
      discoverPairs fs.src cfg.textExt cfg.imageExt ≠ .error .invalid) := by
  constructor
  · intro hne hhead h1 htf
    have hinv : suffixInvalid cfg.imageExt = true := by
      rcases hext : cfg.imageExt with _ | ⟨c, rest⟩
      · exact absurd hext hne
      · have hc : c ≠ '.' := by
          intro hcon
          rw [hext, hcon] at hhead
          simp at hhead
        simp [suffixInvalid, hc]
    obtain ⟨t, ts, hts⟩ : ∃ t ts, textFiles fs.src cfg.textExt = t :: ts := by
      rcases h4 : textFiles fs.src cfg.textExt with _ | ⟨t, ts⟩
      · exact absurd h4 htf
      · exact ⟨t, ts, rfl⟩
    have hd : discoverPairs fs.src cfg.textExt cfg.imageExt = .error .invalid := by
      unfold discoverPairs
      rw [hts, List.foldlM_cons, pairAccum_invalid fs.src cfg.imageExt hinv]
      rfl
    unfold run
    rw [h1, hd]
    simp
  · intro rest hext hrest hsep
    have hval : suffixInvalid cfg.imageExt = false := by
      rw [hext]
      simp [suffixInvalid, hrest, hsep]
      simpa using hsep
    exact foldlM_pairAccum_no_invalid fs.src cfg.imageExt hval _ []

/-- Witness for C10 (amended) at concrete inputs. -/
theorem suffix_validation_witness :
    run cfgC10a fsC7 = (.suffixErr .invalid, fsC7) ∧
    discoverPairs fsC7.src cfgC6.textExt cfgC6.imageExt ≠ .error .invalid := by
  constructor
  · exact (suffix_validation cfgC10a fsC7).1 (by decide) (by decide) (by decide) (by decide)
  · exact (suffix_validation cfgC6 fsC7).2 (("jpg").toList) (by decide) (by decide) (by decide)

/-! Association-list lemmas. -/

theorem alookup_ainsert_self {β : Type} (m : List (Name × β)) (n : Name) (v : β) :
    alookup (ainsert m n v) n = some v := by
  induction m with
  | nil => simp [ainsert, alookup]
  | cons kv rest ih =>
    obtain ⟨k, w⟩ := kv
    by_cases hk : k = n
    · simp [ainsert, hk, alookup]
    · simp [ainsert, hk, alookup, ih]

theorem alookup_ainsert_ne {β : Type} (m : List (Name × β)) (n n' : Name) (v : β)
    (h : n' ≠ n) : alookup (ainsert m n v) n' = alookup m n' := by
  have hn : n ≠ n' := fun hc => h hc.symm
  induction m with
  | nil => simp [ainsert, alookup, hn]
  | cons kv rest ih =>
    obtain ⟨k, w⟩ := kv
    by_cases hk : k = n
    · subst hk
      simp [ainsert, alookup, hn]
    · simp only [ainsert, if_neg hk, alookup]
      by_cases hk' : k = n'
      · simp [hk']
      · simp [hk', ih]

theorem alookup_ainsert_isSome {β : Type} (m : List (Name × β)) (n n' : Name) (v : β)
    (h : alookup m n' ≠ none) : alookup (ainsert m n v) n' ≠ none := by
  by_cases hn : n' = n
  · subst hn; rw [alookup_ainsert_self]; simp
  · rw [alookup_ainsert_ne m n n' v hn]; exact h

theorem alookup_none_of_not_mem {β : Type} (m : List (Name × β)) (n : Name)
    (h : n ∉ m.map Prod.fst) : alookup m n = none := by
  induction m with
  | nil => rfl
  | cons kv rest ih =>
    obtain ⟨k, w⟩ := kv
    simp only [List.map_cons, List.mem_cons] at h
    push_neg at h
    have hkn : k ≠ n := fun hc => h.1 hc.symm
    simp [alookup, hkn, ih h.2]

theorem alookup_isSome_of_mem {β : Type} (m : List (Name × β)) (n : Name)
    (h : n ∈ m.map Prod.fst) : alookup m n ≠ none := by
  induction m with
  | nil => simp at h
  | cons kv rest ih =>
    obtain ⟨k, w⟩ := kv
    simp only [List.map_cons, List.mem_cons] at h
    by_cases hk : k = n
    · simp [alookup, hk]
    · rcases h with h | h
      · exact absurd h.symm hk
      · simp [alookup, hk, ih h]

theorem alookup_aerase_ne {β : Type} (m : List (Name × β)) (n n' : Name) (h : n' ≠ n) :
    alookup (aerase m n) n' = alookup m n' := by
  have hn : n ≠ n' := fun hc => h hc.symm
  induction m with
  | nil => rfl
  | cons kv rest ih =>
    obtain ⟨k, w⟩ := kv
    by_cases hk : k = n
    · subst hk
      simp [aerase, alookup, hn]
    · simp only [aerase, if_neg hk, alookup]
      by_cases hk' : k = n'
      · simp [hk']
      · simp [hk', ih]

theorem alookup_aerase_self {β : Type} (m : List (Name × β))
    (hnd : (m.map Prod.fst).Nodup) (n : Name) : alookup (aerase m n) n = none := by
  induction m with
  | nil => rfl
  | cons kv rest ih =>
    obtain ⟨k, w⟩ := kv
    simp only [List.map_cons, List.nodup_cons] at hnd
    by_cases hk : k = n
    · subst hk
      simp only [aerase, if_pos rfl]
      exact alookup_none_of_not_mem rest k hnd.1
    · simp [aerase, hk, alookup, ih hnd.2]

theorem keys_aerase_sublist {β : Type} (m : List (Name × β)) (n : Name) :
    ((aerase m n).map Prod.fst).Sublist (m.map Prod.fst) := by
  induction m with
  | nil => simp [aerase]
  | cons kv rest ih =>
    obtain ⟨k, w⟩ := kv
    by_cases hk : k = n
    · simp only [aerase, if_pos hk, List.map_cons]
      exact (List.sublist_cons_self _ _)
    · simp only [aerase, if_neg hk, List.map_cons]
      exact ih.cons₂ k

theorem nodup_keys_aerase {β : Type} (m : List (Name × β)) (n : Name)
    (hnd : (m.map Prod.fst).Nodup) : ((aerase m n).map Prod.fst).Nodup :=
  hnd.sublist (keys_aerase_sublist m n)

theorem alookup_amodify {β : Type} (m : List (Name × β)) (n n' : Name) (f : β → β) :
    alookup (amodify m n f) n' =
      if n' = n then (alookup m n).map f else alookup m n' := by
  induction m with
  | nil => by_cases h : n' = n <;> simp [amodify, alookup, h]
  | cons kv rest ih =>
    obtain ⟨k, w⟩ := kv
    by_cases hk : k = n
    · subst hk
      by_cases h' : n' = k
      · subst h'
        simp [amodify, alookup]
      · have hk2 : k ≠ n' := fun hc => h' hc.symm
        simp [amodify, alookup, hk2, h']
    · by_cases h' : n' = n
      · subst h'
        have hk2 : k ≠ n' := hk
        simp [amodify, hk, alookup, hk2, ih]
      · by_cases hk2 : k = n'
        · simp [amodify, hk, alookup, hk2, h']
        · simp [amodify, hk, alookup, hk2, ih, h']

theorem alookup_append_left_none {β : Type} (A B : List (Name × β)) (n : Name)
    (h : alookup A n = none) : alookup (A ++ B) n = alookup B n := by
  induction A with
  | nil => rfl
  | cons kv rest ih =>
    obtain ⟨k, w⟩ := kv
    simp only [alookup] at h
    by_cases hk : k = n
    · rw [if_pos hk] at h; exact Option.noConfusion h
    · rw [if_neg hk] at h
      simp [alookup, hk, ih h]

theorem alookup_append_left_some {β : Type} (A B : List (Name × β)) (n : Name) (v : β)
    (h : alookup A n = some v) : alookup (A ++ B) n = some v := by
  induction A with
  | nil => exact Option.noConfusion h
  | cons kv rest ih =>
    obtain ⟨k, w⟩ := kv
    simp only [alookup] at h
    by_cases hk : k = n
    · rw [if_pos hk] at h
      simp [alookup, hk, h]
    · rw [if_neg hk] at h
      simp [alookup, hk, ih h]

theorem amodify_append_singleton {β : Type} (A : List (Name × β)) (n : Name) (v : β)
    (f : β → β) (h : alookup A n = none) :
    amodify (A ++ [(n, v)]) n f = A ++ [(n, f v)] := by
  induction A with
  | nil => simp [amodify]
  | cons kv rest ih =>
    obtain ⟨k, w⟩ := kv
    simp only [alookup] at h
    by_cases hk : k = n
    · rw [if_pos hk] at h; exact Option.noConfusion h
    · rw [if_neg hk] at h
      simp [amodify, hk, ih h]

/-! Folder-name formatting: `pad2` is injective because the digit string
reads back to the number. -/

theorem digitsToNat_append_digit (xs : List Char) (c : Char) :
    digitsToNat (xs ++ [c]) = 10 * digitsToNat xs + digitVal c := by
  unfold digitsToNat
  rw [List.foldl_append]
  rfl

theorem digitVal_digitChar (d : Nat) (hd : d < 10) : digitVal (Nat.digitChar d) = d := by
  interval_cases d <;> decide

theorem digitsToNat_digitsAux (fuel n : Nat) (h : n < fuel) :
    digitsToNat (digitsAux fuel n) = n := by
  induction fuel generalizing n with
  | zero => omega
  | succ f ih =>
    unfold digitsAux
    by_cases h10 : n < 10
    · rw [if_pos h10]
      have : digitsToNat [Nat.digitChar n] = digitVal (Nat.digitChar n) := by
        unfold digitsToNat
        simp
      rw [this, digitVal_digitChar n h10]
    · rw [if_neg h10]
      have hdiv : n / 10 < f := by
        have h1 : n / 10 < n := Nat.div_lt_self (by omega) (by omega)
        omega
      rw [digitsToNat_append_digit, ih (n / 10) hdiv,
        digitVal_digitChar (n % 10) (Nat.mod_lt _ (by omega))]
      omega

theorem digitsToNat_natDigits (n : Nat) : digitsToNat (natDigits n) = n :=
  digitsToNat_digitsAux (n + 1) n (Nat.lt_succ_self n)

theorem digitsToNat_pad2 (n : Nat) : digitsToNat (pad2 n) = n := by
  unfold pad2
  by_cases h : n < 10
  · rw [if_pos h]
    have : digitsToNat ('0' :: natDigits n) = digitsToNat (natDigits n) := by
      unfold digitsToNat
      simp only [List.foldl_cons]
      have hz : (10 * 0 + digitVal '0') = 0 := by decide
      rw [hz]
    rw [this, digitsToNat_natDigits]
  · rw [if_neg h, digitsToNat_natDigits]

theorem pad2_inj (a b : Nat) (h : pad2 a = pad2 b) : a = b := by
  have := digitsToNat_pad2 a
  rw [h, digitsToNat_pad2 b] at this
  omega

theorem batchFolderName_inj (pfx : Name) (i j : Nat)
    (h : batchFolderName pfx i = batchFolderName pfx j) : i = j := by
  unfold batchFolderName at h
  have h2 := List.append_cancel_left h
  have h3 : pad2 (i + 1) = pad2 (j + 1) := List.cons.inj h2 |>.2
  have := pad2_inj (i + 1) (j + 1) h3
  omega

/-! Characterisation of the transfer phase. -/

theorem exceptBind_ok {ε α β : Type} (x : Except ε α) (g : α → Except ε β) (b : β)
    (h : (x >>= g) = .ok b) : ∃ a, x = .ok a ∧ g a = .ok b := by
  rcases x with e | a
  · exact Except.noConfusion h
  · exact ⟨a, rfl, h⟩

theorem transferFile_ok (move : Bool) (fol f : Name) (fs fs' : FS)
    (h : transferFile move fol f fs = .ok fs') :
    ∃ c, alookup fs.src f = some c ∧
      fs'.folders = amodify fs.folders fol (fun fm => ainsert fm f c) ∧
      fs'.srcExists = fs.srcExists ∧
      fs'.src = (if move then aerase fs.src f else fs.src) := by
  unfold transferFile at h
  rcases halk : alookup fs.src f with _ | c
  · rw [halk] at h
    exact Except.noConfusion h
  · rw [halk] at h
    have h2 := Except.ok.inj h
    refine ⟨c, rfl, ?_, ?_, ?_⟩ <;> (rw [← h2]; cases move <;> simp)

theorem transferPair_ok (move : Bool) (fol : Name) (fs fs' : FS) (p : Name × Name)
    (h : transferPair move fol fs p = .ok fs') :
    ∃ fsa, transferFile move fol p.1 fs = .ok fsa ∧
      transferFile move fol p.2 fsa = .ok fs' := by
  unfold transferPair at h
  exact exceptBind_ok _ _ _ h

theorem transferFile_char (move : Bool) (src0 : FileMap) (fol f : Name)
    (moved : List Name) (fs fs' : FS) (A : Folders) (fm : FileMap)
    (hf : fs.folders = A ++ [(fol, fm)])
    (hA : alookup A fol = none)
    (hinv : ∀ n, alookup fs.src n =
      if (move = true ∧ n ∈ moved) then none else alookup src0 n)
    (hnd : (fs.src.map Prod.fst).Nodup)
    (h : transferFile move fol f fs = .ok fs') :
    fs'.folders = A ++ [(fol, ainsert fm f ((alookup src0 f).getD []))] ∧
    fs'.srcExists = fs.srcExists ∧
    (∀ n, alookup fs'.src n =
      if (move = true ∧ n ∈ moved ++ [f]) then none else alookup src0 n) ∧
    (fs'.src.map Prod.fst).Nodup ∧
    (move = true → f ∉ moved) := by
  obtain ⟨c, hc, hfold, hse, hsrc⟩ := transferFile_ok move fol f fs fs' h
  have hif : ¬ (move = true ∧ f ∈ moved) := by
    intro hcon
    have h3 := hinv f
    rw [if_pos hcon, hc] at h3
    exact Option.noConfusion h3
  have hcs : alookup src0 f = some c := by
    have h3 := hinv f
    rw [if_neg hif, hc] at h3
    exact h3.symm
  refine ⟨?_, hse, ?_, ?_, ?_⟩
  · rw [hfold, hf, amodify_append_singleton A fol fm _ hA, hcs]
    simp
  · intro n
    cases move with
    | false =>
      rw [if_neg (by simp)] at hsrc
      rw [hsrc]
      have h3 := hinv n
      rw [if_neg (by simp)] at h3
      rw [h3, if_neg (by simp)]
    | true =>
      rw [if_pos rfl] at hsrc
      by_cases hn : n = f
      · subst hn
        rw [hsrc, alookup_aerase_self fs.src hnd n,
          if_pos ⟨rfl, by simp⟩]
      · rw [hsrc, alookup_aerase_ne fs.src f n hn]
        have h3 := hinv n
        have hmem : (n ∈ moved ++ [f]) ↔ (n ∈ moved) := by
          simp [List.mem_append, hn]
        by_cases hm : n ∈ moved
        · rw [if_pos ⟨rfl, hm⟩] at h3
          rw [h3, if_pos ⟨rfl, hmem.mpr hm⟩]
        · rw [if_neg (by simp [hm])] at h3
          rw [h3, if_neg (by simp [hm, hn])]
  · cases move with
    | false =>
      rw [if_neg (by simp)] at hsrc
      rw [hsrc]; exact hnd
    | true =>
      rw [if_pos rfl] at hsrc
      rw [hsrc]
      exact nodup_keys_aerase fs.src f hnd
  · intro hmv
    intro hcon
    exact hif ⟨hmv, hcon⟩

theorem transfer_fold_char (move : Bool) (src0 : FileMap) (fol : Name) :
    ∀ (batch : List (Name × Name)) (moved : List Name) (fs fs' : FS)
      (A : Folders) (fm : FileMap),
    fs.folders = A ++ [(fol, fm)] →
    alookup A fol = none →
    (∀ n, alookup fs.src n =
      if (move = true ∧ n ∈ moved) then none else alookup src0 n) →
    (fs.src.map Prod.fst).Nodup →
    batch.foldlM (transferPair move fol) fs = .ok fs' →
    fs'.folders = A ++ [(fol, transferAppend src0 fm batch)] ∧
    fs'.srcExists = fs.srcExists ∧
    (∀ n, alookup fs'.src n =
      if (move = true ∧ n ∈ moved ++ pairNames batch) then none else alookup src0 n) ∧
    (fs'.src.map Prod.fst).Nodup ∧
    (move = true → moved.Nodup → (moved ++ pairNames batch).Nodup) := by
  intro batch
  induction batch with
  | nil =>
    intro moved fs fs' A fm hf hA hinv hnd h
    have hfs : fs = fs' := Except.ok.inj h
    subst hfs
    refine ⟨by rw [hf]; rfl, rfl, ?_, hnd, ?_⟩
    · intro n
      simpa [pairNames] using hinv n
    · intro _ hm
      simpa [pairNames] using hm
  | cons p rest ih =>
    intro moved fs fs' A fm hf hA hinv hnd h
    rw [List.foldlM_cons] at h
    obtain ⟨fs1, hp, hrest⟩ := exceptBind_ok _ _ _ h
    obtain ⟨fsa, h1, h2⟩ := transferPair_ok move fol fs fs1 p hp
    obtain ⟨hfoldA, hseA, hinvA, hndA, hnmA⟩ :=
      transferFile_char move src0 fol p.1 moved fs fsa A fm hf hA hinv hnd h1
    obtain ⟨hfoldB, hseB, hinvB, hndB, hnmB⟩ :=
      transferFile_char move src0 fol p.2 (moved ++ [p.1]) fsa fs1 A _ hfoldA hA hinvA hndA h2
    obtain ⟨hfoldR, hseR, hinvR, hndR, hnmR⟩ :=
      ih ((moved ++ [p.1]) ++ [p.2]) fs1 fs' A _ hfoldB hA hinvB hndB hrest
    have hlist : ((moved ++ [p.1]) ++ [p.2]) ++ pairNames rest
        = moved ++ pairNames (p :: rest) := by
      simp [pairNames, List.append_assoc]
    refine ⟨?_, ?_, ?_, hndR, ?_⟩
    · rw [hfoldR]
      rfl
    · rw [hseR, hseB, hseA]
    · intro n
      rw [← hlist]
      exact hinvR n
    · intro hmv hmoved
      rw [← hlist]
      apply hnmR hmv
      have hp1 : p.1 ∉ moved := hnmA hmv
      have hp2 : p.2 ∉ moved ++ [p.1] := hnmB hmv
      have hn1 : (moved ++ [p.1]).Nodup := by
        rw [List.nodup_append]
        exact ⟨hmoved, by simp, by simpa using hp1⟩
      rw [List.nodup_append]
      exact ⟨hn1, by simp, by simpa using hp2⟩

/-! Characterisation of the concatenation phase. -/

theorem concat_fold_char (fol cn : Name) (n : Nat) :
    ∀ (l : List (Nat × (Name × Name))) (A : Folders) (fm : FileMap) (g : Folders),
    alookup A fol = none →
    l.foldlM (concatStep fol cn n) (A ++ [(fol, fm)]) = .ok g →
    g = A ++ [(fol, concatAccum cn n fm l)] := by
  intro l
  induction l with
  | nil =>
    intro A fm g hA h
    have h2 := Except.ok.inj h
    rw [← h2]
    rfl
  | cons jp rest ih =>
    intro A fm g hA h
    rw [List.foldlM_cons] at h
    obtain ⟨g1, hstep, hrest⟩ := exceptBind_ok _ _ _ h
    have hlookup : alookup (A ++ [(fol, fm)]) fol = some fm := by
      rw [alookup_append_left_none A _ fol hA]
      simp [alookup]
    unfold concatStep at hstep
    rw [hlookup] at hstep
    rcases halk : alookup fm jp.2.1 with _ | content
    · rw [show (some fm).bind (fun fm2 => alookup fm2 jp.2.1) = none from by
        simp [halk]] at hstep
      exact Except.noConfusion hstep
    · rw [show (some fm).bind (fun fm2 => alookup fm2 jp.2.1) = some content from by
        simp [halk]] at hstep
      have hg1 := Except.ok.inj hstep
      have hwrite : concatWrite (A ++ [(fol, fm)]) fol cn
          (content ++ (if jp.1 < n - 1 then sepWrite else []))
          = A ++ [(fol, ainsert fm cn ((alookup fm cn).getD []
              ++ (content ++ (if jp.1 < n - 1 then sepWrite else []))))] := by
        unfold concatWrite
        exact amodify_append_singleton A fol fm _ hA
      rw [hwrite] at hg1
      rw [← hg1] at hrest
      have hacc : concatAccum cn n fm (jp :: rest)
          = concatAccum cn n (ainsert fm cn ((alookup fm cn).getD []
              ++ (content ++ (if jp.1 < n - 1 then sepWrite else [])))) rest := by
        show concatAccum cn n
          (ainsert fm cn ((alookup fm cn).getD []
            ++ ((alookup fm jp.2.1).getD [] ++ (if jp.1 < n - 1 then sepWrite else [])))) rest = _
        rw [halk]
        rfl
      rw [hacc]
      exact ih A _ g hA hrest

theorem concatBatch_char (fol cn : Name) (batch : List (Name × Name)) (fs fs' : FS)
    (A : Folders) (fm : FileMap)
    (hf : fs.folders = A ++ [(fol, fm)]) (hA : alookup A fol = none)
    (h : concatBatch fol cn batch fs = .ok fs') :
    fs'.folders = A ++ [(fol, concatAccum cn batch.length (ainsert fm cn []) batch.enum)] ∧
    fs'.src = fs.src ∧ fs'.srcExists = fs.srcExists := by
  unfold concatBatch at h
  have hfold0 : amodify fs.folders fol (fun fm2 => ainsert fm2 cn [])
      = A ++ [(fol, ainsert fm cn [])] := by
    rw [hf]
    exact amodify_append_singleton A fol fm _ hA
  rw [hfold0] at h
  rcases hres : batch.enum.foldlM (concatStep fol cn batch.length)
      (A ++ [(fol, ainsert fm cn [])]) with g | g
  · rw [hres] at h
    exact Except.noConfusion h
  · rw [hres] at h
    have h2 := Except.ok.inj h
    have hg := concat_fold_char fol cn batch.length batch.enum A _ g hA hres
    rw [← h2, hg]
    exact ⟨rfl, rfl, rfl⟩

/-! Characterisation of one whole batch iteration and of the batch loop. -/

theorem alookup_fname_map_none (pfx : Name) (g : Nat → FileMap) (l : List Nat) (k : Nat)
    (hk : k ∉ l) :
    alookup (l.map (fun i => (batchFolderName pfx i, g i))) (batchFolderName pfx k)
      = none := by
  induction l with
  | nil => rfl
  | cons i rest ih =>
    simp only [List.mem_cons] at hk
    push_neg at hk
    have hne : batchFolderName pfx i ≠ batchFolderName pfx k := by
      intro hc
      exact hk.1 (batchFolderName_inj pfx i k hc).symm
    simp [alookup, hne, ih hk.2]

theorem alookup_fname_map_some (pfx : Name) (g : Nat → FileMap) (l : List Nat) (k : Nat)
    (hk : k ∈ l) :
    alookup (l.map (fun i => (batchFolderName pfx i, g i))) (batchFolderName pfx k)
      = some (g k) := by
  induction l with
  | nil => simp at hk
  | cons i rest ih =>
    by_cases hik : i = k
    · subst hik
      simp [alookup]
    · have hne : batchFolderName pfx i ≠ batchFolderName pfx k := by
        intro hc
        exact hik (batchFolderName_inj pfx i k hc)
      have hkr : k ∈ rest := by
        rcases List.mem_cons.mp hk with h | h
        · exact absurd h.symm hik
        · exact h
      simp [alookup, hne, ih hkr]

theorem alookup_fname_map_inv (pfx : Name) (g : Nat → FileMap) (l : List Nat)
    (f : Name) (fm : FileMap)
    (h : alookup (l.map (fun i => (batchFolderName pfx i, g i))) f = some fm) :
    ∃ i, i ∈ l ∧ f = batchFolderName pfx i ∧ fm = g i := by
  induction l with
  | nil => exact Option.noConfusion h
  | cons i rest ih =>
    simp only [List.map_cons, alookup] at h
    by_cases hif : batchFolderName pfx i = f
    · rw [if_pos hif] at h
      exact ⟨i, by simp, hif.symm, (Option.some.inj h).symm⟩
    · rw [if_neg hif] at h
      obtain ⟨j, hj1, hj2, hj3⟩ := ih h
      exact ⟨j, by simp [hj1], hj2, hj3⟩

theorem movedNames_succ (pairs : List (Name × Name)) (bs : Int) (k : Nat) :
    movedNames pairs bs (k + 1)
      = movedNames pairs bs k ++ pairNames (batchSlice pairs bs k) := by
  unfold movedNames
  rw [List.range_succ, List.map_append, List.flatten_append]
  simp

theorem mkdirFolders_fresh (m : Folders) (n : Name) (h : alookup m n = none) :
    mkdirFolders m n = m ++ [(n, [])] := by
  unfold mkdirFolders
  rw [h]

theorem processBatch_char (cfg : Config) (pairs : List (Name × Name)) (src0 : FileMap)
    (k : Nat) (fs fs' : FS)
    (hf : fs.folders = (List.range k).map (fun i => (batchFolderName cfg.folderPfx i,
      folderContent src0 cfg.combinedName (batchSlice pairs cfg.batchSize i))))
    (hinv : ∀ n, alookup fs.src n =
      if (cfg.moveFiles = true ∧ n ∈ movedNames pairs cfg.batchSize k) then none
      else alookup src0 n)
    (hnd : (fs.src.map Prod.fst).Nodup)
    (h : processBatch cfg pairs fs k = .ok fs') :
    fs'.folders = (List.range (k + 1)).map (fun i => (batchFolderName cfg.folderPfx i,
      folderContent src0 cfg.combinedName (batchSlice pairs cfg.batchSize i))) ∧
    fs'.srcExists = fs.srcExists ∧
    (∀ n, alookup fs'.src n =
      if (cfg.moveFiles = true ∧ n ∈ movedNames pairs cfg.batchSize (k + 1)) then none
      else alookup src0 n) ∧
    (fs'.src.map Prod.fst).Nodup ∧
    (cfg.moveFiles = true → (movedNames pairs cfg.batchSize k).Nodup →
      (movedNames pairs cfg.batchSize (k + 1)).Nodup) := by
  unfold processBatch at h
  obtain ⟨fs1, htr, hcb⟩ := exceptBind_ok _ _ _ h
  have hA : alookup ((List.range k).map (fun i => (batchFolderName cfg.folderPfx i,
      folderContent src0 cfg.combinedName (batchSlice pairs cfg.batchSize i))))
      (batchFolderName cfg.folderPfx k) = none :=
    alookup_fname_map_none cfg.folderPfx _ (List.range k) k (by simp)
  have hmk : mkdirFolders fs.folders (batchFolderName cfg.folderPfx k)
      = (List.range k).map (fun i => (batchFolderName cfg.folderPfx i,
          folderContent src0 cfg.combinedName (batchSlice pairs cfg.batchSize i)))
        ++ [(batchFolderName cfg.folderPfx k, [])] := by
    rw [hf]
    exact mkdirFolders_fresh _ _ hA
  obtain ⟨hfoldT, hseT, hinvT, hndT, hnmT⟩ :=
    transfer_fold_char cfg.moveFiles src0 (batchFolderName cfg.folderPfx k)
      (batchSlice pairs cfg.batchSize k) (movedNames pairs cfg.batchSize k)
      { fs with folders := mkdirFolders fs.folders (batchFolderName cfg.folderPfx k) }
      fs1 _ [] (by simp [hmk]) hA hinv hnd htr
  obtain ⟨hfoldC, hsrcC, hseC⟩ :=
    concatBatch_char (batchFolderName cfg.folderPfx k) cfg.combinedName
      (batchSlice pairs cfg.batchSize k) fs1 fs' _ _ hfoldT hA hcb
  refine ⟨?_, ?_, ?_, ?_, ?_⟩
  · rw [hfoldC, List.range_succ, List.map_append]
    rfl
  · rw [hseC, hseT]
  · intro n
    rw [movedNames_succ]
    rw [hsrcC]
    exact hinvT n
  · rw [hsrcC]
    exact hndT
  · intro hmv hmoved
    rw [movedNames_succ]
    exact hnmT hmv hmoved

theorem batches_fold_char (cfg : Config) (pairs : List (Name × Name)) (src0 : FileMap) :
    ∀ (K : Nat) (fs0 fs' : FS), fs0.src = src0 → fs0.folders = [] →
    (src0.map Prod.fst).Nodup →
    (List.range K).foldlM (processBatch cfg pairs) fs0 = .ok fs' →
    fs'.srcExists = fs0.srcExists ∧
    fs'.folders = (List.range K).map (fun i => (batchFolderName cfg.folderPfx i,
      folderContent src0 cfg.combinedName (batchSlice pairs cfg.batchSize i))) ∧
    (∀ n, alookup fs'.src n =
      if (cfg.moveFiles = true ∧ n ∈ movedNames pairs cfg.batchSize K) then none
      else alookup src0 n) ∧
    (fs'.src.map Prod.fst).Nodup ∧
    (cfg.moveFiles = true → (movedNames pairs cfg.batchSize K).Nodup) := by
  intro K
  induction K with
  | zero =>
    intro fs0 fs' hsrc hfold hnd h
    have h2 : fs0 = fs' := Except.ok.inj h
    subst h2
    refine ⟨rfl, by rw [hfold]; rfl, ?_, by rw [hsrc]; exact hnd, ?_⟩
    · intro n
      rw [if_neg (by simp [movedNames]), hsrc]
    · intro _
      simp [movedNames]
  | succ k ih =>
    intro fs0 fs' hsrc hfold hnd h
    rw [List.range_succ, List.foldlM_append] at h
    obtain ⟨mid, hmid, hlast⟩ := exceptBind_ok _ _ _ h
    obtain ⟨hse, hfoldM, hinvM, hndM, hnmM⟩ := ih fs0 mid hsrc hfold hnd hmid
    rw [List.foldlM_cons] at hlast
    have hlast2 : processBatch cfg pairs mid k = .ok fs' := by
      obtain ⟨fin, hfin, hpure⟩ := exceptBind_ok _ _ _ hlast
      have h3 : fin = fs' := Except.ok.inj hpure
      rw [← h3]
      exact hfin
    obtain ⟨hf1, hse1, hinv1, hnd1, hnm1⟩ :=
      processBatch_char cfg pairs src0 k mid fs' hfoldM hinvM hndM hlast2
    refine ⟨by rw [hse1, hse], hf1, hinv1, hnd1, ?_⟩
    intro hmv
    exact hnm1 hmv (hnmM hmv)

/-! Inversion of a successful run, and what discovery guarantees. -/

theorem run_ok_inv (cfg : Config) (fs fs' : FS) (nb : Int) (P : Nat)
    (h : run cfg fs = (.ok nb P, fs')) :
    fs.srcExists = true ∧
    ∃ pairs, discoverPairs fs.src cfg.textExt cfg.imageExt = .ok pairs ∧
      pairs ≠ [] ∧ cfg.batchSize ≠ 0 ∧
      nb = numBatches pairs.length cfg.batchSize ∧ P = pairs.length ∧
      (List.range (numBatches pairs.length cfg.batchSize).toNat).foldlM
        (processBatch cfg pairs) fs = .ok fs' := by
  unfold run at h
  split at h
  · exact absurd ((Prod.mk.injEq _ _ _ _).mp h).1 (by simp)
  · rename_i hse
    have hse' : fs.srcExists = true := by
      cases hb : fs.srcExists
      · exact absurd hb hse
      · rfl
    refine ⟨hse', ?_⟩
    split at h
    · exact absurd ((Prod.mk.injEq _ _ _ _).mp h).1 (by simp)
    · rename_i pairs hd
      split at h
      · exact absurd ((Prod.mk.injEq _ _ _ _).mp h).1 (by simp)
      · rename_i hp
        split at h
        · exact absurd ((Prod.mk.injEq _ _ _ _).mp h).1 (by simp)
        · rename_i hz
          split at h
          · exact absurd ((Prod.mk.injEq _ _ _ _).mp h).1 (by simp)
          · rename_i f1 hres
            have h2 := (Prod.mk.injEq _ _ _ _).mp h
            obtain ⟨hnb, hP⟩ := Outcome.ok.inj h2.1
            exact ⟨pairs, hd, hp, hz, hnb.symm, hP.symm, by rw [hres, h2.2]⟩

theorem mem_insertSorted (n m : Name) (l : List Name) :
    m ∈ insertSorted n l ↔ m = n ∨ m ∈ l := by
  induction l with
  | nil => simp [insertSorted]
  | cons x xs ih =>
    unfold insertSorted
    by_cases hle : strLe n x
    · simp [hle]
    · simp only [Bool.not_eq_true] at hle
      simp [hle, List.mem_cons, ih]
      tauto

theorem mem_sortNames (m : Name) (l : List Name) : m ∈ sortNames l ↔ m ∈ l := by
  induction l with
  | nil => simp [sortNames]
  | cons x xs ih =>
    unfold sortNames
    rw [mem_insertSorted, ih, List.mem_cons]

theorem textFiles_subset_keys (src : FileMap) (tExt : Name) (t : Name)
    (h : t ∈ textFiles src tExt) : t ∈ src.map Prod.fst := by
  unfold textFiles at h
  rw [mem_sortNames] at h
  exact List.mem_of_mem_filter h

theorem discover_fold_mem (src : FileMap) (iExt : Name) :
    ∀ (l : List Name) (acc pairs : List (Name × Name)),
    (∀ t ∈ l, t ∈ src.map Prod.fst) →
    (∀ p ∈ acc, alookup src p.1 ≠ none ∧ alookup src p.2 ≠ none) →
    l.foldlM (pairAccum src iExt) acc = .ok pairs →
    ∀ p ∈ pairs, alookup src p.1 ≠ none ∧ alookup src p.2 ≠ none := by
  intro l
  induction l with
  | nil =>
    intro acc pairs _ hacc h
    have h2 : acc = pairs := Except.ok.inj h
    rw [← h2]
    exact hacc
  | cons t ts ih =>
    intro acc pairs hl hacc h
    rw [List.foldlM_cons] at h
    obtain ⟨acc', hstep, hrest⟩ := exceptBind_ok _ _ _ h
    have hts : ∀ u ∈ ts, u ∈ src.map Prod.fst := fun u hu => hl u (List.mem_cons_of_mem t hu)
    unfold pairAccum at hstep
    split at hstep
    · exact Except.noConfusion hstep
    · rename_i img hw
      split at hstep
      · rename_i c himg
        have h2 : acc ++ [(t, img)] = acc' := Except.ok.inj hstep
        apply ih acc' pairs hts ?_ hrest
        intro p hp
        rw [← h2, List.mem_append] at hp
        rcases hp with hp | hp
        · exact hacc p hp
        · simp only [List.mem_singleton] at hp
          subst hp
          refine ⟨?_, by rw [himg]; simp⟩
          exact alookup_isSome_of_mem src t (hl t (List.mem_cons_self t ts))
      · have h2 : acc = acc' := Except.ok.inj hstep
        exact ih acc' pairs hts (h2 ▸ hacc) hrest

theorem discoverPairs_mem (src : FileMap) (tExt iExt : Name)
    (pairs : List (Name × Name))
    (h : discoverPairs src tExt iExt = .ok pairs) :
    ∀ p ∈ pairs, alookup src p.1 ≠ none ∧ alookup src p.2 ≠ none := by
  unfold discoverPairs at h
  exact discover_fold_mem src iExt (textFiles src tExt) [] pairs
    (fun t ht => textFiles_subset_keys src tExt t ht) (by simp) h

/-! Copy mode leaves the source directory untouched. -/

theorem concatBatch_src (fol cn : Name) (batch : List (Name × Name)) (fs fs' : FS)
    (h : concatBatch fol cn batch fs = .ok fs') :
    fs'.src = fs.src ∧ fs'.srcExists = fs.srcExists := by
  unfold concatBatch at h
  rcases hres : batch.enum.foldlM (concatStep fol cn batch.length)
      (amodify fs.folders fol (fun fm => ainsert fm cn [])) with g | g
  · rw [hres] at h
    exact Except.noConfusion h
  · rw [hres] at h
    have h2 := Except.ok.inj h
    rw [← h2]
    exact ⟨rfl, rfl⟩

theorem transferPair_copy_src (fol : Name) (fs fs' : FS) (p : Name × Name)
    (h : transferPair false fol fs p = .ok fs') :
    fs'.src = fs.src ∧ fs'.srcExists = fs.srcExists := by
  obtain ⟨fsa, h1, h2⟩ := transferPair_ok false fol fs fs' p h
  obtain ⟨c1, _, _, hse1, hsrc1⟩ := transferFile_ok false fol p.1 fs fsa h1
  obtain ⟨c2, _, _, hse2, hsrc2⟩ := transferFile_ok false fol p.2 fsa fs' h2
  simp only [Bool.false_eq_true, if_false] at hsrc1 hsrc2
  exact ⟨by rw [hsrc2, hsrc1], by rw [hse2, hse1]⟩

theorem transfer_fold_copy_src (fol : Name) :
    ∀ (batch : List (Name × Name)) (fs fs' : FS),
    batch.foldlM (transferPair false fol) fs = .ok fs' →
    fs'.src = fs.src ∧ fs'.srcExists = fs.srcExists := by
  intro batch
  induction batch with
  | nil =>
    intro fs fs' h
    have h2 : fs = fs' := Except.ok.inj h
    rw [← h2]
    exact ⟨rfl, rfl⟩
  | cons p rest ih =>
    intro fs fs' h
    rw [List.foldlM_cons] at h
    obtain ⟨fs1, hp, hrest⟩ := exceptBind_ok _ _ _ h
    obtain ⟨ha, hb⟩ := transferPair_copy_src fol fs fs1 p hp
    obtain ⟨hc, hd⟩ := ih fs1 fs' hrest
    exact ⟨by rw [hc, ha], by rw [hd, hb]⟩

theorem processBatch_copy_src (cfg : Config) (pairs : List (Name × Name)) (k : Nat)
    (fs fs' : FS) (hmv : cfg.moveFiles = false)
    (h : processBatch cfg pairs fs k = .ok fs') :
    fs'.src = fs.src ∧ fs'.srcExists = fs.srcExists := by
  unfold processBatch at h
  rw [hmv] at h
  obtain ⟨fs1, htr, hcb⟩ := exceptBind_ok _ _ _ h
  obtain ⟨ha, hb⟩ := transfer_fold_copy_src _ _ _ _ htr
  obtain ⟨hc, hd⟩ := concatBatch_src _ _ _ _ _ hcb
  exact ⟨by rw [hc, ha], by rw [hd, hb]⟩

theorem fold_copy_src (cfg : Config) (pairs : List (Name × Name))
    (hmv : cfg.moveFiles = false) :
    ∀ (l : List Nat) (fs fs' : FS),
    l.foldlM (processBatch cfg pairs) fs = .ok fs' →
    fs'.src = fs.src ∧ fs'.srcExists = fs.srcExists := by
  intro l
  induction l with
  | nil =>
    intro fs fs' h
    have h2 : fs = fs' := Except.ok.inj h
    rw [← h2]
    exact ⟨rfl, rfl⟩
  | cons k rest ih =>
    intro fs fs' h
    rw [List.foldlM_cons] at h
    obtain ⟨fs1, hp, hrest⟩ := exceptBind_ok _ _ _ h
    obtain ⟨ha, hb⟩ := processBatch_copy_src cfg pairs k fs fs1 hmv hp
    obtain ⟨hc, hd⟩ := ih fs1 fs' hrest
    exact ⟨by rw [hc, ha], by rw [hd, hb]⟩

/-! Lookups inside a characterised batch folder. -/

theorem alookup_concatAccum_ne (cn : Name) (n : Nat) :
    ∀ (l : List (Nat × (Name × Name))) (fm : FileMap) (m : Name), m ≠ cn →
    alookup (concatAccum cn n fm l) m = alookup fm m := by
  intro l
  induction l with
  | nil => intro fm m _; rfl
  | cons jp rest ih =>
    intro fm m hm
    show alookup (concatAccum cn n _ rest) m = _
    rw [ih _ m hm, alookup_ainsert_ne _ cn m _ hm]

theorem alookup_transferAppend_not_mem (src0 : FileMap) :
    ∀ (batch : List (Name × Name)) (fm : FileMap) (m : Name), m ∉ pairNames batch →
    alookup (transferAppend src0 fm batch) m = alookup fm m := by
  intro batch
  induction batch with
  | nil => intro fm m _; rfl
  | cons p rest ih =>
    intro fm m hm
    simp only [pairNames, List.mem_cons] at hm
    push_neg at hm
    show alookup (transferAppend src0 _ rest) m = _
    rw [ih _ m hm.2.2, alookup_ainsert_ne _ p.2 m _ hm.2.1,
      alookup_ainsert_ne _ p.1 m _ hm.1]

theorem alookup_transferAppend_pres (src0 : FileMap) :
    ∀ (batch : List (Name × Name)) (fm : FileMap) (m : Name), alookup fm m ≠ none →
    alookup (transferAppend src0 fm batch) m ≠ none := by
  intro batch
  induction batch with
  | nil => intro fm m hm; exact hm
  | cons p rest ih =>
    intro fm m hm
    show alookup (transferAppend src0 _ rest) m ≠ none
    apply ih
    exact alookup_ainsert_isSome _ p.2 m _ (alookup_ainsert_isSome _ p.1 m _ hm)

theorem alookup_transferAppend_mem (src0 : FileMap) :
    ∀ (batch : List (Name × Name)) (fm : FileMap) (m : Name), m ∈ pairNames batch →
    alookup (transferAppend src0 fm batch) m ≠ none := by
  intro batch
  induction batch with
  | nil => intro fm m hm; simp [pairNames] at hm
  | cons p rest ih =>
    intro fm m hm
    show alookup (transferAppend src0 _ rest) m ≠ none
    rcases List.mem_cons.mp hm with h1 | hm2
    · subst h1
      apply alookup_transferAppend_pres
      apply alookup_ainsert_isSome
      rw [alookup_ainsert_self]
      simp
    · rcases List.mem_cons.mp hm2 with h2 | hm3
      · subst h2
        apply alookup_transferAppend_pres
        rw [alookup_ainsert_self]
        simp
      · exact ih _ m hm3

theorem alookup_folderContent_ne_cn (src0 : FileMap) (cn : Name)
    (batch : List (Name × Name)) (m : Name) (hm : m ≠ cn) :
    alookup (folderContent src0 cn batch) m
      = alookup (transferAppend src0 [] batch) m := by
  unfold folderContent
  rw [alookup_concatAccum_ne cn batch.length batch.enum _ m hm,
    alookup_ainsert_ne _ cn m _ hm]

theorem mem_pairNames_of_mem (p : Name × Name) :
    ∀ (batch : List (Name × Name)), p ∈ batch →
    p.1 ∈ pairNames batch ∧ p.2 ∈ pairNames batch := by
  intro batch
  induction batch with
  | nil => intro hp; simp at hp
  | cons q rest ih =>
    intro hp
    rcases List.mem_cons.mp hp with h1 | h2
    · subst h1
      simp [pairNames]
    · have := ih h2
      simp [pairNames, this.1, this.2]

theorem mem_movedNames (pairs : List (Name × Name)) (bs : Int) (K i : Nat) (hi : i < K)
    (n : Name) (hn : n ∈ pairNames (batchSlice pairs bs i)) :
    n ∈ movedNames pairs bs K := by
  unfold movedNames
  rw [List.mem_flatten]
  refine ⟨pairNames (batchSlice pairs bs i), ?_, hn⟩
  rw [List.mem_map]
  exact ⟨i, List.mem_range.mpr hi, rfl⟩

theorem movedNames_disjoint (pairs : List (Name × Name)) (bs : Int) (K : Nat)
    (hnd : (movedNames pairs bs K).Nodup) (i j : Nat) (hi : i < K) (hj : j < K)
    (hij : i ≠ j) (n : Name) (hni : n ∈ pairNames (batchSlice pairs bs i)) :
    n ∉ pairNames (batchSlice pairs bs j) := by
  unfold movedNames at hnd
  have hpair := (List.nodup_flatten.mp hnd).2
  rw [List.pairwise_map] at hpair
  have hpl := List.pairwise_iff_getElem.mp hpair
  rcases Nat.lt_or_ge i j with hlt | hge
  · have hd := hpl i j (by simpa) (by simpa) hlt
    simp only [List.getElem_range] at hd
    exact fun hc => hd hni hc
  · have hlt2 : j < i := by omega
    have hd := hpl j i (by simpa) (by simpa) hlt2
    simp only [List.getElem_range] at hd
    exact fun hc => hd hc hni

theorem mem_of_mem_batchSlice {α : Type} (l : List α) (bs : Int) (i : Nat) (p : α)
    (hp : p ∈ batchSlice l bs i) : p ∈ l := by
  unfold batchSlice pySlice at hp
  exact List.mem_of_mem_take (List.mem_of_mem_drop hp)

/-- C8: transfer-mode frame effect.  For every successful run: in copy mode
the source directory is left exactly as it was, so every pair file is
still present in it; in move mode — starting from a state with no
pre-existing batch folders, duplicate-free source names, and a combined
filename distinct from every pair file — every pair file is absent from
the source directory, present in its own batch folder, and absent from
every other folder. -/
theorem transfer_mode_effect (cfg : Config) (fs fs' : FS) (nb : Int) (P : Nat)
    (pairs : List (Name × Name))
    (hdisc : discoverPairs fs.src cfg.textExt cfg.imageExt = .ok pairs)
    (hrun : run cfg fs = (.ok nb P, fs')) :
    (cfg.moveFiles = false →
      fs'.src = fs.src ∧
      (∀ p ∈ pairs, alookup fs'.src p.1 ≠ none ∧ alookup fs'.src p.2 ≠ none)) ∧
    (cfg.moveFiles = true → fs.folders = [] → (fs.src.map Prod.fst).Nodup →
      (∀ p ∈ pairs, p.1 ≠ cfg.combinedName ∧ p.2 ≠ cfg.combinedName) →
      ∀ i, i < nb.toNat → ∀ p, p ∈ batchSlice pairs cfg.batchSize i →
        (alookup fs'.src p.1 = none ∧ alookup fs'.src p.2 = none) ∧
        (∃ fm, alookup fs'.folders (batchFolderName cfg.folderPfx i) = some fm ∧
          alookup fm p.1 ≠ none ∧ alookup fm p.2 ≠ none) ∧
        (∀ f fm, alookup fs'.folders f = some fm →
          f ≠ batchFolderName cfg.folderPfx i →
          alookup fm p.1 = none ∧ alookup fm p.2 = none)) := by
  obtain ⟨hse, pairs2, hdisc2, hne2, hz2, hnb2, hP2, hfold⟩ :=
    run_ok_inv cfg fs fs' nb P hrun
  have hpairs : pairs2 = pairs := by
    rw [hdisc] at hdisc2
    exact (Except.ok.inj hdisc2).symm
  subst hpairs
  constructor
  · intro hmv
    obtain ⟨hsrc, _⟩ := fold_copy_src cfg pairs2 hmv _ fs fs' hfold
    refine ⟨hsrc, ?_⟩
    intro p hp
    rw [hsrc]
    exact discoverPairs_mem fs.src cfg.textExt cfg.imageExt pairs2 hdisc p hp
  · intro hmv hfolders hnd hcn i hi p hp
    obtain ⟨_, hfoldersF, hinvF, _, hnmF⟩ :=
      batches_fold_char cfg pairs2 fs.src
        (numBatches pairs2.length cfg.batchSize).toNat fs fs' rfl hfolders hnd hfold
    have hK : i < (numBatches pairs2.length cfg.batchSize).toNat := by
      rw [hnb2] at hi
      exact hi
    have hmem := mem_pairNames_of_mem p (batchSlice pairs2 cfg.batchSize i) hp
    have hm1 : p.1 ∈ movedNames pairs2 cfg.batchSize
        (numBatches pairs2.length cfg.batchSize).toNat :=
      mem_movedNames pairs2 cfg.batchSize _ i hK p.1 hmem.1
    have hm2 : p.2 ∈ movedNames pairs2 cfg.batchSize
        (numBatches pairs2.length cfg.batchSize).toNat :=
      mem_movedNames pairs2 cfg.batchSize _ i hK p.2 hmem.2
    have hpin : p ∈ pairs2 := mem_of_mem_batchSlice pairs2 cfg.batchSize i p hp
    have hcn1 : p.1 ≠ cfg.combinedName := (hcn p hpin).1
    have hcn2 : p.2 ≠ cfg.combinedName := (hcn p hpin).2
    refine ⟨⟨?_, ?_⟩, ?_, ?_⟩
    · rw [hinvF p.1, if_pos ⟨hmv, hm1⟩]
    · rw [hinvF p.2, if_pos ⟨hmv, hm2⟩]
    · refine ⟨folderContent fs.src cfg.combinedName (batchSlice pairs2 cfg.batchSize i),
        ?_, ?_, ?_⟩
      · rw [hfoldersF]
        exact alookup_fname_map_some cfg.folderPfx _ _ i (List.mem_range.mpr hK)
      · rw [alookup_folderContent_ne_cn _ _ _ _ hcn1]
        exact alookup_transferAppend_mem fs.src _ [] p.1 hmem.1
      · rw [alookup_folderContent_ne_cn _ _ _ _ hcn2]
        exact alookup_transferAppend_mem fs.src _ [] p.2 hmem.2
    · intro f fm hlook hfne
      rw [hfoldersF] at hlook
      obtain ⟨j, hjmem, hfj, hfmj⟩ := alookup_fname_map_inv cfg.folderPfx _ _ f fm hlook
      have hjK : j < (numBatches pairs2.length cfg.batchSize).toNat := List.mem_range.mp hjmem
      have hij : i ≠ j := by
        intro hc
        exact hfne (by rw [hfj, hc])
      have hdisj1 := movedNames_disjoint pairs2 cfg.batchSize _ (hnmF hmv) i j hK hjK hij
        p.1 hmem.1
      have hdisj2 := movedNames_disjoint pairs2 cfg.batchSize _ (hnmF hmv) i j hK hjK hij
        p.2 hmem.2
      subst hfmj
      constructor
      · rw [alookup_folderContent_ne_cn _ _ _ _ hcn1,
          alookup_transferAppend_not_mem fs.src _ [] p.1 hdisj1]
        rfl
      · rw [alookup_folderContent_ne_cn _ _ _ _ hcn2,
          alookup_transferAppend_not_mem fs.src _ [] p.2 hdisj2]
        rfl

/-- Witness for C8 at a concrete input: move mode, two pairs, batch size 1;
pair `a` lands in `Batch_01`, vanishes from the source, and appears in no
other folder. -/
theorem transfer_mode_effect_witness :
    (alookup ((run cfgC8 fsC8).2).src aTxt = none ∧
     alookup ((run cfgC8 fsC8).2).src aJpg = none) ∧
    (∃ fm, alookup ((run cfgC8 fsC8).2).folders (batchFolderName pfxB 0) = some fm ∧
      alookup fm aTxt ≠ none ∧ alookup fm aJpg ≠ none) ∧
    (∀ f fm, alookup ((run cfgC8 fsC8).2).folders f = some fm →
      f ≠ batchFolderName pfxB 0 →
      alookup fm aTxt = none ∧ alookup fm aJpg = none) := by
  have h := transfer_mode_effect cfgC8 fsC8 ((run cfgC8 fsC8).2) 2 2 pairsC8
    (by decide) (by decide)
  exact h.2 (by decide) (by decide) (by decide) (by decide) 0 (by decide)
    (aTxt, aJpg) (by decide)

/-! Lock-step simulation of the copy run and the move run (C9). -/

theorem transferFile_sim (fol f : Name) (fsC fsM fsC' fsM' : FS)
    (hR : simR fsC fsM)
    (hC : transferFile false fol f fsC = .ok fsC')
    (hM : transferFile true fol f fsM = .ok fsM') :
    simR fsC' fsM' := by
  obtain ⟨hfold, hsub, hnd⟩ := hR
  obtain ⟨c1, hc1, hfC, hseC, hsC⟩ := transferFile_ok false fol f fsC fsC' hC
  obtain ⟨c2, hc2, hfM, hseM, hsM⟩ := transferFile_ok true fol f fsM fsM' hM
  simp only [Bool.false_eq_true, if_false, if_true] at hsC hsM
  have hcc : c1 = c2 := by
    have h3 := hsub f c2 hc2
    rw [hc1] at h3
    exact Option.some.inj h3
  refine ⟨?_, ?_, ?_⟩
  · rw [hfC, hfM, hfold, hcc]
  · intro n v hn
    rw [hsM] at hn
    by_cases hnf : n = f
    · subst hnf
      rw [alookup_aerase_self fsM.src hnd n] at hn
      exact Option.noConfusion hn
    · rw [alookup_aerase_ne fsM.src f n hnf] at hn
      rw [hsC]
      exact hsub n v hn
  · rw [hsM]
    exact nodup_keys_aerase fsM.src f hnd

theorem transferPair_sim (fol : Name) (p : Name × Name) (fsC fsM fsC' fsM' : FS)
    (hR : simR fsC fsM)
    (hC : transferPair false fol fsC p = .ok fsC')
    (hM : transferPair true fol fsM p = .ok fsM') :
    simR fsC' fsM' := by
  obtain ⟨fsaC, h1C, h2C⟩ := transferPair_ok false fol fsC fsC' p hC
  obtain ⟨fsaM, h1M, h2M⟩ := transferPair_ok true fol fsM fsM' p hM
  exact transferFile_sim fol p.2 fsaC fsaM fsC' fsM'
    (transferFile_sim fol p.1 fsC fsM fsaC fsaM hR h1C h1M) h2C h2M

theorem transfer_fold_sim (fol : Name) :
    ∀ (batch : List (Name × Name)) (fsC fsM fsC' fsM' : FS), simR fsC fsM →
    batch.foldlM (transferPair false fol) fsC = .ok fsC' →
    batch.foldlM (transferPair true fol) fsM = .ok fsM' →
    simR fsC' fsM' := by
  intro batch
  induction batch with
  | nil =>
    intro fsC fsM fsC' fsM' hR hC hM
    have h1 : fsC = fsC' := Except.ok.inj hC
    have h2 : fsM = fsM' := Except.ok.inj hM
    rw [← h1, ← h2]
    exact hR
  | cons p rest ih =>
    intro fsC fsM fsC' fsM' hR hC hM
    rw [List.foldlM_cons] at hC hM
    obtain ⟨fs1C, hpC, hrC⟩ := exceptBind_ok _ _ _ hC
    obtain ⟨fs1M, hpM, hrM⟩ := exceptBind_ok _ _ _ hM
    exact ih fs1C fs1M fsC' fsM'
      (transferPair_sim fol p fsC fsM fs1C fs1M hR hpC hpM) hrC hrM

theorem concatBatch_sim (fol cn : Name) (batch : List (Name × Name))
    (fsC fsM fsC' fsM' : FS) (hfold : fsC.folders = fsM.folders)
    (hC : concatBatch fol cn batch fsC = .ok fsC')
    (hM : concatBatch fol cn batch fsM = .ok fsM') :
    fsC'.folders = fsM'.folders ∧ fsC'.src = fsC.src ∧ fsM'.src = fsM.src ∧
    fsC'.srcExists = fsC.srcExists ∧ fsM'.srcExists = fsM.srcExists := by
  unfold concatBatch at hC hM
  rw [hfold] at hC
  rcases hres : batch.enum.foldlM (concatStep fol cn batch.length)
      (amodify fsM.folders fol (fun fm => ainsert fm cn [])) with g | g
  · rw [hres] at hC
    exact Except.noConfusion hC
  · rw [hres] at hC hM
    have h1 := Except.ok.inj hC
    have h2 := Except.ok.inj hM
    rw [← h1, ← h2]
    exact ⟨rfl, rfl, rfl, rfl, rfl⟩

theorem processBatch_sim (cfg : Config) (pairs : List (Name × Name)) (k : Nat)
    (fsC fsM fsC' fsM' : FS) (hR : simR fsC fsM)
    (hC : processBatch { cfg with moveFiles := false } pairs fsC k = .ok fsC')
    (hM : processBatch { cfg with moveFiles := true } pairs fsM k = .ok fsM') :
    simR fsC' fsM' := by
  unfold processBatch at hC hM
  obtain ⟨fs1C, htrC, hcbC⟩ := exceptBind_ok _ _ _ hC
  obtain ⟨fs1M, htrM, hcbM⟩ := exceptBind_ok _ _ _ hM
  have hR0 : simR
      { fsC with folders := mkdirFolders fsC.folders (batchFolderName cfg.folderPfx k) }
      { fsM with folders := mkdirFolders fsM.folders (batchFolderName cfg.folderPfx k) } := by
    refine ⟨?_, hR.2.1, hR.2.2⟩
    show mkdirFolders fsC.folders _ = mkdirFolders fsM.folders _
    rw [hR.1]
  have hR1 := transfer_fold_sim (batchFolderName cfg.folderPfx k)
    (batchSlice pairs cfg.batchSize k) _ _ fs1C fs1M hR0 htrC htrM
  obtain ⟨hfo, hsC, hsM, _, _⟩ := concatBatch_sim (batchFolderName cfg.folderPfx k)
    cfg.combinedName (batchSlice pairs cfg.batchSize k) fs1C fs1M fsC' fsM'
    hR1.1 hcbC hcbM
  refine ⟨hfo, ?_, ?_⟩
  · intro n v hn
    rw [hsM] at hn
    rw [hsC]
    exact hR1.2.1 n v hn
  · rw [hsM]
    exact hR1.2.2

theorem batches_fold_sim (cfg : Config) (pairs : List (Name × Name)) :
    ∀ (l : List Nat) (fsC fsM fsC' fsM' : FS), simR fsC fsM →
    l.foldlM (processBatch { cfg with moveFiles := false } pairs) fsC = .ok fsC' →
    l.foldlM (processBatch { cfg with moveFiles := true } pairs) fsM = .ok fsM' →
    simR fsC' fsM' := by
  intro l
  induction l with
  | nil =>
    intro fsC fsM fsC' fsM' hR hC hM
    have h1 : fsC = fsC' := Except.ok.inj hC
    have h2 : fsM = fsM' := Except.ok.inj hM
    rw [← h1, ← h2]
    exact hR
  | cons k rest ih =>
    intro fsC fsM fsC' fsM' hR hC hM
    rw [List.foldlM_cons] at hC hM
    obtain ⟨fs1C, hpC, hrC⟩ := exceptBind_ok _ _ _ hC
    obtain ⟨fs1M, hpM, hrM⟩ := exceptBind_ok _ _ _ hM
    exact ih fs1C fs1M fsC' fsM'
      (processBatch_sim cfg pairs k fsC fsM fs1C fs1M hR hpC hpM) hrC hrM

/-- C9: running the same initial state in copy mode and in move mode gives
every batch folder identical contents — in particular the combined text
file of every batch is identical in the two modes, because concatenation
reads each document from its batch-folder path after the transfer. -/
theorem combined_mode_agnostic (cfg : Config) (fs fsC fsM : FS) (nbC nbM : Int)
    (PC PM : Nat) (hnd : (fs.src.map Prod.fst).Nodup)
    (hC : run { cfg with moveFiles := false } fs = (.ok nbC PC, fsC))
    (hM : run { cfg with moveFiles := true } fs = (.ok nbM PM, fsM)) :
    fsC.folders = fsM.folders ∧
    ∀ f : Name, (alookup fsC.folders f).map (fun fm => alookup fm cfg.combinedName)
      = (alookup fsM.folders f).map (fun fm => alookup fm cfg.combinedName) := by
  obtain ⟨_, pairsC, hdC, _, _, _, _, hfoldC⟩ := run_ok_inv _ fs fsC nbC PC hC
  obtain ⟨_, pairsM, hdM, _, _, _, _, hfoldM⟩ := run_ok_inv _ fs fsM nbM PM hM
  have hdC' : discoverPairs fs.src cfg.textExt cfg.imageExt = .ok pairsC := hdC
  have hdM' : discoverPairs fs.src cfg.textExt cfg.imageExt = .ok pairsM := hdM
  have hpe : pairsM = pairsC := by
    rw [hdC'] at hdM'
    exact (Except.ok.inj hdM').symm
  subst hpe
  have hfoldC' : (List.range (numBatches pairsM.length cfg.batchSize).toNat).foldlM
      (processBatch { cfg with moveFiles := false } pairsM) fs = .ok fsC := hfoldC
  have hfoldM' : (List.range (numBatches pairsM.length cfg.batchSize).toNat).foldlM
      (processBatch { cfg with moveFiles := true } pairsM) fs = .ok fsM := hfoldM
  have hsim := batches_fold_sim cfg pairsM
    (List.range (numBatches pairsM.length cfg.batchSize).toNat) fs fs fsC fsM
    ⟨rfl, fun _ _ h => h, hnd⟩ hfoldC' hfoldM'
  refine ⟨hsim.1, ?_⟩
  intro f
  rw [hsim.1]

/-- Witness for C9 at a concrete input: with two pairs and batch size 1 the
combined file of `Batch_01` is the same whether the run copies or moves. -/
theorem combined_mode_agnostic_witness :
    (alookup ((run cfgC9 fsC9).2).folders (batchFolderName pfxB 0)).map
        (fun fm => alookup fm combinedTxt)
      = (alookup ((run { cfgC9 with moveFiles := true } fsC9).2).folders
          (batchFolderName pfxB 0)).map (fun fm => alookup fm combinedTxt) := by
  have h := combined_mode_agnostic cfgC9 fsC9
    ((run cfgC9 fsC9).2) ((run { cfgC9 with moveFiles := true } fsC9).2) 2 2 2 2
    (by decide) (by decide) (by decide)
  exact h.2 (batchFolderName pfxB 0)

end BatchOrg
